import Mathlib

/-!
Shallow embedding of `src/activity-04/q1-d.py` (Caesar-cipher brute-force
cryptanalysis) and verification of its specification.

Modelling conventions:
* Python `str` values are `List Char`; `str.upper` / `str.lower` /
  `str.isupper` / `str.isalpha` are modelled by their ASCII behaviour,
  via explicit case tables (the program only manipulates ASCII data).
* Python floats are modelled as exact rationals; `float("inf")` is the
  top element of `WithTop ℚ`.
* Python's stable `list.sort(key=...)` is modelled by `List.insertionSort`
  over the lexicographic order on the key `(score, shift)`; since the
  `shift` component is distinct for all 26 candidates this key order is
  a total strict order and the sorted result is unique, so the choice of
  (stable) sorting algorithm is immaterial.
* Python `%` on integers with positive modulus is `Int.emod` (both return
  the non-negative representative).
-/

/-- Source constant: `ALPH = string.ascii_uppercase`. -/
def ALPH : List Char := "ABCDEFGHIJKLMNOPQRSTUVWXYZ".toList

/-- The lowercase alphabet, used to model ASCII case conversion. -/
def LOWERALPH : List Char := "abcdefghijklmnopqrstuvwxyz".toList

/-- Python `ch.upper()` restricted to ASCII: a lowercase letter maps to the
uppercase letter at the same alphabet index, everything else is unchanged. -/
def py_upper (ch : Char) : Char :=
  if ch ∈ LOWERALPH then ALPH.getD (LOWERALPH.indexOf ch) 'A' else ch

/-- Python `ch.lower()` restricted to ASCII. -/
def py_lower (ch : Char) : Char :=
  if ch ∈ ALPH then LOWERALPH.getD (ALPH.indexOf ch) 'a' else ch

/-- Python `ch.isupper()` restricted to ASCII. -/
def py_isupper (ch : Char) : Bool := ch ∈ ALPH

/-- Python `ch.isalpha()` restricted to ASCII. -/
def py_isalpha (ch : Char) : Bool := ch ∈ ALPH || ch ∈ LOWERALPH

/-- Python `ch.islower()` restricted to ASCII (used to state the
case-preservation property). -/
def py_islower (ch : Char) : Bool := ch ∈ LOWERALPH

/-- One character of `caesar_decrypt`'s loop body: uppercase the character;
if the result is in `ALPH`, shift its index back by `shift` modulo 26 and
restore the original case; otherwise pass the character through. -/
def caesar_decrypt_char (shift : Int) (ch : Char) : Char :=
  let up := py_upper ch
  if up ∈ ALPH then
    let idx := (((ALPH.indexOf up : Int) - shift) % 26).toNat
    let dec := ALPH.getD idx 'A'
    if py_isupper ch then dec else py_lower dec
  else ch

/-- Source function `caesar_decrypt(text, shift)`: shift letters backward by `shift`,
non-letters pass through. -/
def caesar_decrypt (text : List Char) (shift : Int) : List Char :=
  text.map (caesar_decrypt_char shift)

/-- Source constant `EN_FREQ`: English letter frequencies (percent), as exact rationals. -/
def EN_FREQ : List (Char × ℚ) :=
  [('A', 8167/1000), ('B', 1492/1000), ('C', 2782/1000), ('D', 4253/1000),
   ('E', 12702/1000), ('F', 2228/1000), ('G', 2015/1000), ('H', 6094/1000),
   ('I', 6966/1000), ('J', 153/1000), ('K', 772/1000), ('L', 4025/1000),
   ('M', 2406/1000), ('N', 6749/1000), ('O', 7507/1000), ('P', 1929/1000),
   ('Q', 95/1000), ('R', 5987/1000), ('S', 6327/1000), ('T', 9056/1000),
   ('U', 2758/1000), ('V', 978/1000), ('W', 2360/1000), ('X', 150/1000),
   ('Y', 1974/1000), ('Z', 74/1000)]

/-- Dictionary lookup `EN_FREQ[L]` (all 26 letters are present). -/
def EN_FREQ_get (c : Char) : ℚ :=
  ((EN_FREQ.find? (fun p => p.1 = c)).map Prod.snd).getD 0

/-- Source constant: `EN_TOTAL = sum(EN_FREQ.values())`. -/
def EN_TOTAL : ℚ := (EN_FREQ.map Prod.snd).sum

/-- Source constant `COMMON_WORDS` (a Python `set`; modelled as a list, used only for
membership tests). -/
def COMMON_WORDS : List (List Char) :=
  ["THE", "AND", "OF", "TO", "IN", "IS", "IT", "YOU", "THAT", "FOR", "ON",
   "WITH", "AS", "ARE", "AT", "BE", "BY", "THIS", "I", "NOT", "OR", "FROM",
   "HAVE", "AN"].map String.toList

/-- Source function `chi_square_english(text)`: lower = closer to English distribution;
`float("inf")` (here `⊤`) when the text has no letters. -/
def chi_square_english (text : List Char) : WithTop ℚ :=
  let letters := (text.map py_upper).filter (fun ch => ch ∈ ALPH)
  let N := letters.length
  if N = 0 then ⊤
  else
    ((ALPH.foldl (fun chi L =>
        let expected : ℚ := EN_FREQ_get L / EN_TOTAL * (N : ℚ)
        let diff : ℚ := (letters.count L : ℚ) - expected
        chi + diff * diff / (if 0 < expected then expected else 1 / 1000000000))
      0 : ℚ) : WithTop ℚ)

/-- Python whitespace predicate, for `str.split()` with no separator. -/
def py_isspace (ch : Char) : Bool :=
  ch = ' ' || ch = '\t' || ch = '\n' || ch = '\x0b' || ch = '\x0c' || ch = '\r'

/-- Helper for `str.split()`: accumulate the current (reversed) token. -/
def py_split_go : List Char → List Char → List (List Char)
  | [], acc => if acc = [] then [] else [acc.reverse]
  | c :: cs, acc =>
    if py_isspace c then
      if acc = [] then py_split_go cs [] else acc.reverse :: py_split_go cs []
    else py_split_go cs (c :: acc)

/-- Python `str.split()` with no separator: split on runs of whitespace,
discarding empty tokens. -/
def py_split (l : List Char) : List (List Char) := py_split_go l []

/-- Source function `english_word_score(text)`: replace non-letters of the uppercased text
by spaces, split, and count tokens that are common words. -/
def english_word_score (text : List Char) : Nat :=
  let tokens :=
    py_split ((text.map py_upper).map (fun ch => if py_isalpha ch then ch else ' '))
  (tokens.filter (fun tok => tok ∈ COMMON_WORDS)).length

/-- A candidate `(score, shift, plaintext)` as built by `brute_force_caesar`:
the score is the pair `(-hits, chi)`. -/
abbrev Cand : Type := (Int × WithTop ℚ) × Nat × List Char

/-- The sort order used by `candidates.sort(key=lambda x: (x[0], x[1]))`:
lexicographic on `(-hits, chi, shift)`. -/
def candLe (a b : Cand) : Prop :=
  a.1.1 < b.1.1 ∨
    (a.1.1 = b.1.1 ∧ (a.1.2 < b.1.2 ∨ (a.1.2 = b.1.2 ∧ a.2.1 ≤ b.2.1)))

instance : DecidableRel candLe := fun a b => by
  unfold candLe; infer_instance

instance : IsTotal Cand candLe where
  total a b := by
    rcases lt_trichotomy a.1.1 b.1.1 with h | h | h
    · exact Or.inl (Or.inl h)
    · rcases lt_trichotomy a.1.2 b.1.2 with h2 | h2 | h2
      · exact Or.inl (Or.inr ⟨h, Or.inl h2⟩)
      · rcases Nat.le_total a.2.1 b.2.1 with h3 | h3
        · exact Or.inl (Or.inr ⟨h, Or.inr ⟨h2, h3⟩⟩)
        · exact Or.inr (Or.inr ⟨h.symm, Or.inr ⟨h2.symm, h3⟩⟩)
      · exact Or.inr (Or.inr ⟨h.symm, Or.inl h2⟩)
    · exact Or.inr (Or.inl h)

instance : IsTrans Cand candLe where
  trans a b c hab hbc := by
    rcases hab with h1 | ⟨e1, h1⟩
    · rcases hbc with h2 | ⟨e2, _⟩
      · exact Or.inl (h1.trans h2)
      · exact Or.inl (e2 ▸ h1)
    · rcases hbc with h2 | ⟨e2, h2⟩
      · exact Or.inl (e1 ▸ h2)
      · refine Or.inr ⟨e1.trans e2, ?_⟩
        rcases h1 with h1 | ⟨f1, h1⟩
        · rcases h2 with h2 | ⟨f2, _⟩
          · exact Or.inl (h1.trans h2)
          · exact Or.inl (f2 ▸ h1)
        · rcases h2 with h2 | ⟨f2, h2⟩
          · exact Or.inl (f1 ▸ h2)
          · exact Or.inr ⟨f1.trans f2, h1.trans h2⟩

/-- Python slicing `l[:k]` (supports negative `k`). -/
def pySliceTo (l : List Cand) (k : Int) : List Cand :=
  if 0 ≤ k then l.take k.toNat else l.take ((l.length : Int) + k).toNat

/-- One iteration of `brute_force_caesar`'s loop: decrypt with `shift` and
attach the score `(-hits, chi)` (or the neutral `(0, 0)` when scoring is
disabled). -/
def bf_candidate (ciphertext : List Char) (use_scoring : Bool)
    (shift : Nat) : Cand :=
  let pt := caesar_decrypt ciphertext (shift : Int)
  let score : Int × WithTop ℚ :=
    if use_scoring then
      (-(english_word_score pt : Int), chi_square_english pt)
    else (0, ((0 : ℚ) : WithTop ℚ))
  (score, shift, pt)

/-- The `candidates` list of `brute_force_caesar`: one candidate per
`shift in range(26)`, in shift order. -/
def bf_candidates (ciphertext : List Char) (use_scoring : Bool) : List Cand :=
  (List.range 26).map (bf_candidate ciphertext use_scoring)

/-- Source function `brute_force_caesar(ciphertext, use_scoring, top_k)`: build the 26
candidates, sort them by `(score, shift)`, and return
`(candidates[:top_k], candidates)`. -/
def brute_force_caesar (ciphertext : List Char) (use_scoring : Bool)
    (top_k : Int) : List Cand × List Cand :=
  let sorted := (bf_candidates ciphertext use_scoring).insertionSort candLe
  (pySliceTo sorted top_k, sorted)

/-! ### Character-level facts about the case tables

All of these quantify over the 26 concrete alphabet characters (or the 26
valid indices), so they are settled by `decide`. -/

lemma ALPH_length : ALPH.length = 26 := by decide

lemma mem_ALPH_facts :
    ∀ c ∈ ALPH, py_upper c = c ∧ py_isupper c = true ∧
      ALPH.indexOf c < 26 ∧ ALPH.getD (ALPH.indexOf c) 'A' = c ∧
      (c ∈ LOWERALPH) = False := by decide

lemma mem_LOWERALPH_facts :
    ∀ c ∈ LOWERALPH, ALPH.indexOf (py_upper c) = LOWERALPH.indexOf c ∧
      LOWERALPH.indexOf c < 26 ∧
      LOWERALPH.getD (LOWERALPH.indexOf c) 'a' = c ∧
      py_isupper c = false ∧ py_lower (py_upper c) = c := by decide

lemma idx_facts :
    ∀ j, j < 26 → ALPH.getD j 'A' ∈ ALPH ∧
      ALPH.indexOf (ALPH.getD j 'A') = j ∧
      py_lower (ALPH.getD j 'A') = LOWERALPH.getD j 'a' ∧
      py_upper (LOWERALPH.getD j 'a') = ALPH.getD j 'A' ∧
      py_isupper (LOWERALPH.getD j 'a') = false ∧
      py_isupper (ALPH.getD j 'A') = true ∧
      (ALPH.getD j 'A' ∈ LOWERALPH) = False ∧
      LOWERALPH.getD j 'a' ∈ LOWERALPH ∧
      LOWERALPH.indexOf (LOWERALPH.getD j 'a') = j := by decide

/-- The guard `ch.upper() in ALPH` of `caesar_decrypt` holds exactly for
(ASCII-)alphabetic characters. -/
lemma py_upper_mem_ALPH_iff (c : Char) :
    py_upper c ∈ ALPH ↔ py_isalpha c = true := by
  by_cases hl : c ∈ LOWERALPH
  · have h1 := (mem_LOWERALPH_facts c hl).2.1
    have h2 := (idx_facts _ h1).1
    have hup : py_upper c = ALPH.getD (LOWERALPH.indexOf c) 'A' := by
      unfold py_upper; rw [if_pos hl]
    constructor
    · intro _; simp [py_isalpha, hl]
    · intro _; rw [hup]; exact h2
  · have hup : py_upper c = c := by unfold py_upper; rw [if_neg hl]
    rw [hup]; simp [py_isalpha, hl]

/-- A character that is not (ASCII-)alphabetic passes through
`caesar_decrypt` unchanged. -/
lemma caesar_decrypt_char_of_not_alpha (s : Int) (c : Char)
    (h : py_isalpha c = false) : caesar_decrypt_char s c = c := by
  have : ¬ py_upper c ∈ ALPH := by
    rw [py_upper_mem_ALPH_iff]; simp [h]
  simp [caesar_decrypt_char, this]

/-- Bounds for the shifted index: `(i - s) % 26` (Python `%`, i.e. `Int.emod`
with positive modulus) lies in `[0, 26)`. -/
lemma shift_idx_lt (i : Int) (s : Int) :
    ((i - s) % 26).toNat < 26 := by
  have h1 : 0 ≤ (i - s) % 26 := Int.emod_nonneg _ (by norm_num)
  have h2 : (i - s) % 26 < 26 := Int.emod_lt_of_pos _ (by norm_num)
  omega

/-- Evaluation of `caesar_decrypt_char` on an uppercase letter. -/
lemma caesar_decrypt_char_upper (s : Int) (c : Char) (hc : c ∈ ALPH) :
    caesar_decrypt_char s c =
      ALPH.getD (((ALPH.indexOf c : Int) - s) % 26).toNat 'A' := by
  have hup := (mem_ALPH_facts c hc).1
  have hisup := (mem_ALPH_facts c hc).2.1
  unfold caesar_decrypt_char
  rw [hup, if_pos hc, hisup]
  simp

/-- Evaluation of `caesar_decrypt_char` on a lowercase letter. -/
lemma caesar_decrypt_char_lower (s : Int) (c : Char) (hc : c ∈ LOWERALPH) :
    caesar_decrypt_char s c =
      LOWERALPH.getD (((LOWERALPH.indexOf c : Int) - s) % 26).toNat 'a' := by
  have hidx := (mem_LOWERALPH_facts c hc).1
  have hlt := (mem_LOWERALPH_facts c hc).2.1
  have hisup := (mem_LOWERALPH_facts c hc).2.2.2.1
  have hup : py_upper c = ALPH.getD (LOWERALPH.indexOf c) 'A' := by
    unfold py_upper; rw [if_pos hc]
  have hmem : py_upper c ∈ ALPH := by rw [hup]; exact (idx_facts _ hlt).1
  unfold caesar_decrypt_char
  rw [if_pos hmem, hisup, hidx]
  have hjlt := shift_idx_lt (LOWERALPH.indexOf c : Int) s
  simp only [Bool.false_eq_true, if_false]
  exact (idx_facts _ hjlt).2.2.1

/-- Round trip at the character level: decrypting by `s` and then by
`26 - s` restores the character. -/
lemma caesar_decrypt_char_roundtrip (s : Int) (h1 : 0 < s) (h2 : s < 26)
    (c : Char) :
    caesar_decrypt_char (26 - s) (caesar_decrypt_char s c) = c := by
  by_cases ha : py_isalpha c = true
  · have := ha
    simp only [py_isalpha, Bool.or_eq_true, decide_eq_true_eq] at this
    rcases this with hc | hc
    · -- uppercase letter
      have hi := (mem_ALPH_facts c hc).2.2.1
      rw [caesar_decrypt_char_upper s c hc]
      have hjlt := shift_idx_lt (ALPH.indexOf c : Int) s
      have hmem := (idx_facts _ hjlt).1
      rw [caesar_decrypt_char_upper _ _ hmem, (idx_facts _ hjlt).2.1]
      have hj : ((((ALPH.indexOf c : Int) - s) % 26).toNat : Int) =
          ((ALPH.indexOf c : Int) - s) % 26 := by
        exact Int.toNat_of_nonneg (Int.emod_nonneg _ (by norm_num))
      have hgoal : ((((((ALPH.indexOf c : Int) - s) % 26).toNat : Int) -
          (26 - s)) % 26).toNat = ALPH.indexOf c := by omega
      rw [hgoal]
      exact (mem_ALPH_facts c hc).2.2.2.1
    · -- lowercase letter
      have hi := (mem_LOWERALPH_facts c hc).2.1
      rw [caesar_decrypt_char_lower s c hc]
      have hjlt := shift_idx_lt (LOWERALPH.indexOf c : Int) s
      have hmem := (idx_facts _ hjlt).2.2.2.2.2.2.2.1
      rw [caesar_decrypt_char_lower _ _ hmem, (idx_facts _ hjlt).2.2.2.2.2.2.2.2]
      have hj : ((((LOWERALPH.indexOf c : Int) - s) % 26).toNat : Int) =
          ((LOWERALPH.indexOf c : Int) - s) % 26 := by
        exact Int.toNat_of_nonneg (Int.emod_nonneg _ (by norm_num))
      have hgoal : ((((((LOWERALPH.indexOf c : Int) - s) % 26).toNat : Int) -
          (26 - s)) % 26).toNat = LOWERALPH.indexOf c := by omega
      rw [hgoal]
      exact (mem_LOWERALPH_facts c hc).2.2.1
  · have ha' : py_isalpha c = false := by
      cases hb : py_isalpha c
      · rfl
      · exact absurd hb ha
    rw [caesar_decrypt_char_of_not_alpha s c ha',
      caesar_decrypt_char_of_not_alpha _ c ha']

/-- Shift `0` fixes every character. -/
lemma caesar_decrypt_char_zero (c : Char) : caesar_decrypt_char 0 c = c := by
  by_cases ha : py_isalpha c = true
  · have := ha
    simp only [py_isalpha, Bool.or_eq_true, decide_eq_true_eq] at this
    rcases this with hc | hc
    · rw [caesar_decrypt_char_upper 0 c hc]
      have hi := (mem_ALPH_facts c hc).2.2.1
      have : ((((ALPH.indexOf c : Int)) - 0) % 26).toNat = ALPH.indexOf c := by
        omega
      rw [this]
      exact (mem_ALPH_facts c hc).2.2.2.1
    · rw [caesar_decrypt_char_lower 0 c hc]
      have hi := (mem_LOWERALPH_facts c hc).2.1
      have : ((((LOWERALPH.indexOf c : Int)) - 0) % 26).toNat =
          LOWERALPH.indexOf c := by omega
      rw [this]
      exact (mem_LOWERALPH_facts c hc).2.2.1
  · have ha' : py_isalpha c = false := by
      cases hb : py_isalpha c
      · rfl
      · exact absurd hb ha
    exact caesar_decrypt_char_of_not_alpha 0 c ha'

/-- The decrypted list is a `map`; its entry at `i` is the decryption of the
entry at `i`. -/
lemma caesar_decrypt_getD (t : List Char) (s : Int) (i : Nat)
    (hi : i < t.length) :
    (caesar_decrypt t s).getD i 'A' = caesar_decrypt_char s (t.getD i 'A') := by
  have hlen : (caesar_decrypt t s).length = t.length := by
    simp [caesar_decrypt]
  rw [List.getD_eq_getElem _ _ (by rwa [hlen]), List.getD_eq_getElem _ _ hi]
  simp [caesar_decrypt]

/-- C2: applying shift `s` and then shift `26 - s` restores the text, and
shift `0` is the identity.

Claim: "For every text T and every shift s with 0 < s < 26,
decryptShift(decryptShift(T, s), 26 - s) equals T, and for every text T,
decryptShift(T, 0) equals T." -/
theorem caesar_decrypt_roundtrip (t : List Char) (s : Int)
    (h1 : 0 < s) (h2 : s < 26) :
    caesar_decrypt (caesar_decrypt t s) (26 - s) = t ∧
      caesar_decrypt t 0 = t := by
  constructor
  · induction t with
    | nil => rfl
    | cons c cs ih =>
      simp only [caesar_decrypt, List.map_cons] at ih ⊢
      rw [caesar_decrypt_char_roundtrip s h1 h2 c, ih]
  · induction t with
    | nil => rfl
    | cons c cs ih =>
      simp only [caesar_decrypt, List.map_cons] at ih ⊢
      rw [caesar_decrypt_char_zero c, ih]

/-- Witness for `caesar_decrypt_roundtrip` at `T = "Ab, c!"`, `s = 3`. -/
theorem caesar_decrypt_roundtrip_witness :
    (0 : Int) < 3 ∧ (3 : Int) < 26 ∧
      (caesar_decrypt (caesar_decrypt ("Ab, c!".toList) 3) (26 - 3) =
          "Ab, c!".toList ∧
        caesar_decrypt ("Ab, c!".toList) 0 = "Ab, c!".toList) :=
  ⟨by decide, by decide,
    caesar_decrypt_roundtrip ("Ab, c!".toList) 3 (by decide) (by decide)⟩

/-- C10: `caesar_decrypt` is length-preserving.

Claim: "For every text T and every shift s in [0, 26), the output of
caesar_decrypt(T, s) contains exactly the same number of characters as T." -/
theorem caesar_decrypt_length (t : List Char) (s : Int)
    (h0 : 0 ≤ s) (h1 : s < 26) :
    (caesar_decrypt t s).length = t.length := by
  simp [caesar_decrypt]

/-- Witness for `caesar_decrypt_length` at `T = "Hi 5!"`, `s = 7`. -/
theorem caesar_decrypt_length_witness :
    (0 : Int) ≤ 7 ∧ (7 : Int) < 26 ∧
      (caesar_decrypt ("Hi 5!".toList) 7).length = "Hi 5!".toList.length :=
  ⟨by decide, by decide,
    caesar_decrypt_length ("Hi 5!".toList) 7 (by decide) (by decide)⟩

/-- C8: non-alphabetic characters pass through unchanged at the same
position, and the case of each alphabetic character is preserved.

Claim: "For every text T and every shift s in [0, 26), every non-alphabetic
character of T appears unchanged, at the same position, in
decryptShift(T, s), and the case (upper or lower) of every alphabetic letter
of T is preserved in decryptShift(T, s)." -/
theorem caesar_decrypt_preserves_nonalpha_and_case (t : List Char) (s : Int)
    (h0 : 0 ≤ s) (h1 : s < 26) (i : Nat) (hi : i < t.length) :
    (py_isalpha (t.getD i 'A') = false →
      (caesar_decrypt t s).getD i 'A' = t.getD i 'A') ∧
    (py_isalpha (t.getD i 'A') = true →
      py_isupper ((caesar_decrypt t s).getD i 'A') =
          py_isupper (t.getD i 'A') ∧
        py_islower ((caesar_decrypt t s).getD i 'A') =
          py_islower (t.getD i 'A')) := by
  rw [caesar_decrypt_getD t s i hi]
  set c := t.getD i 'A' with hc
  constructor
  · intro hna
    rw [caesar_decrypt_char_of_not_alpha s c hna]
  · intro ha
    simp only [py_isalpha, Bool.or_eq_true, decide_eq_true_eq] at ha
    rcases ha with hmem | hmem
    · rw [caesar_decrypt_char_upper s c hmem]
      have hjlt := shift_idx_lt (ALPH.indexOf c : Int) s
      constructor
      · rw [(idx_facts _ hjlt).2.2.2.2.2.1, (mem_ALPH_facts c hmem).2.1]
      · have hnl1 := (idx_facts _ hjlt).2.2.2.2.2.2.1
        have hnl2 := (mem_ALPH_facts c hmem).2.2.2.2
        have e1 : py_islower (ALPH.getD (((ALPH.indexOf c : Int) - s) %
            26).toNat 'A') = false := by
          simp only [py_islower]
          exact decide_eq_false (fun h => (hnl1 ▸ h : False))
        have e2 : py_islower c = false := by
          simp only [py_islower]
          exact decide_eq_false (fun h => (hnl2 ▸ h : False))
        rw [e1, e2]
    · rw [caesar_decrypt_char_lower s c hmem]
      have hjlt := shift_idx_lt (LOWERALPH.indexOf c : Int) s
      constructor
      · rw [(idx_facts _ hjlt).2.2.2.2.1,
          (mem_LOWERALPH_facts c hmem).2.2.2.1]
      · have hl1 := (idx_facts _ hjlt).2.2.2.2.2.2.2.1
        have e1 : py_islower (LOWERALPH.getD (((LOWERALPH.indexOf c : Int) -
            s) % 26).toNat 'a') = true := by
          simp only [py_islower]
          exact decide_eq_true hl1
        have e2 : py_islower c = true := by
          simp only [py_islower]
          exact decide_eq_true hmem
        rw [e1, e2]

/-- Witness for `caesar_decrypt_preserves_nonalpha_and_case` at
`T = "a!Z"`, `s = 5`, `i = 1`. -/
theorem caesar_decrypt_preserves_nonalpha_and_case_witness :
    (0 : Int) ≤ 5 ∧ (5 : Int) < 26 ∧ 1 < "a!Z".toList.length ∧
      ((py_isalpha ("a!Z".toList.getD 1 'A') = false →
        (caesar_decrypt ("a!Z".toList) 5).getD 1 'A' =
          "a!Z".toList.getD 1 'A') ∧
      (py_isalpha ("a!Z".toList.getD 1 'A') = true →
        py_isupper ((caesar_decrypt ("a!Z".toList) 5).getD 1 'A') =
            py_isupper ("a!Z".toList.getD 1 'A') ∧
          py_islower ((caesar_decrypt ("a!Z".toList) 5).getD 1 'A') =
            py_islower ("a!Z".toList.getD 1 'A'))) :=
  ⟨by decide, by decide, by decide,
    caesar_decrypt_preserves_nonalpha_and_case ("a!Z".toList) 5 (by decide)
      (by decide) 1 (by decide)⟩

/-- A map that fixes every element of a list is the identity on it. -/
lemma list_map_id_of {α : Type} (l : List α) (f : α → α)
    (h : ∀ c ∈ l, f c = c) : l.map f = l := by
  induction l with
  | nil => rfl
  | cons c cs ih =>
    rw [List.map_cons, h c (by simp), ih (fun c hc => h c (by simp [hc]))]

/-- A text with no (ASCII-)alphabetic characters yields no letters after
uppercasing and filtering by `ALPH`. -/
lemma letters_eq_nil_of_no_alpha (t : List Char)
    (h : ∀ c ∈ t, py_isalpha c = false) :
    (t.map py_upper).filter (fun ch => ch ∈ ALPH) = [] := by
  rw [List.filter_eq_nil_iff]
  intro a ha
  rcases List.mem_map.mp ha with ⟨c, hct, rfl⟩
  have hna : ¬ py_upper c ∈ ALPH := by
    rw [py_upper_mem_ALPH_iff]
    simp [h c hct]
  simpa using hna

/-- Evaluation: `chi_square_english` of a letter-free text is `+∞` (the `N = 0` branch). -/
lemma chi_square_no_alpha (t : List Char)
    (h : ∀ c ∈ t, py_isalpha c = false) : chi_square_english t = ⊤ := by
  unfold chi_square_english
  rw [letters_eq_nil_of_no_alpha t h]
  rfl

/-- C6: the chi-square statistic of the empty string, and of any text
without alphabetic characters, is positive infinity.

Claim: "chiSquareEnglish (chi_square_english) applied to the empty string
returns positive infinity, and applied to any text containing no alphabetic
characters also returns positive infinity." -/
theorem chi_square_english_no_letters (t : List Char)
    (h : ∀ c ∈ t, py_isalpha c = false) :
    chi_square_english ([] : List Char) = ⊤ ∧ chi_square_english t = ⊤ :=
  ⟨rfl, chi_square_no_alpha t h⟩

/-- Witness for `chi_square_english_no_letters` at `t = "12?*"`. -/
theorem chi_square_english_no_letters_witness :
    (∀ c ∈ "12?*".toList, py_isalpha c = false) ∧
      (chi_square_english ([] : List Char) = ⊤ ∧
        chi_square_english ("12?*".toList) = ⊤) :=
  ⟨by decide, chi_square_english_no_letters ("12?*".toList) (by decide)⟩

/-- Wrapping: `caesar_decrypt` reduces any integer shift modulo 26, character by
character. -/
lemma caesar_decrypt_char_mod26 (s : Int) (c : Char) :
    caesar_decrypt_char s c = caesar_decrypt_char (s % 26) c := by
  by_cases hmem : py_upper c ∈ ALPH
  · have hj : (((ALPH.indexOf (py_upper c) : Int) - s) % 26).toNat =
        (((ALPH.indexOf (py_upper c) : Int) - s % 26) % 26).toNat := by
      omega
    simp only [caesar_decrypt_char, if_pos hmem, hj]
  · simp only [caesar_decrypt_char, if_neg hmem]

/-- C4 counterexample: an out-of-range shift is accepted and silently
wrapped modulo 26 — `caesar_decrypt("B", 27)` returns the same result as
`caesar_decrypt("B", 1)`, namely `"A"`, instead of reporting a
precondition violation. -/
theorem caesar_decrypt_invalid_shift_cex :
    caesar_decrypt ("B".toList) 27 = caesar_decrypt ("B".toList) 1 ∧
      caesar_decrypt ("B".toList) 27 = "A".toList := by decide

/-- C4 (amended): `caesar_decrypt` accepts every integer shift and reduces
it modulo 26: for any shift (in range or not), the result equals that of
the wrapped shift `s % 26`; no failure is ever reported. -/
theorem caesar_decrypt_mod26 (t : List Char) (s : Int) :
    caesar_decrypt t s = caesar_decrypt t (s % 26) := by
  unfold caesar_decrypt
  exact List.map_congr_left (fun c _ => caesar_decrypt_char_mod26 s c)

set_option maxRecDepth 1000000 in
unseal Rat.add Rat.mul Rat.inv Rat.sub in
/-- C1: on the demo ciphertext (true shift 3), scoring-enabled ranking puts
shift 3 with plaintext `"THIS IS A CAESAR CIPHER."` first, both in the
top-k list and in the full ranked list.

Claim: "For the ciphertext \"WKLV LV D FDHVDU FLSKHU.\", calling rankShifts
(brute_force_caesar) with scoring enabled returns as its top-ranked
candidate the shift 3 with plaintext \"THIS IS A CAESAR CIPHER.\"." -/
theorem brute_force_caesar_demo_top :
    ((brute_force_caesar ("WKLV LV D FDHVDU FLSKHU.".toList) true 5).1.head?.map
        (fun c => (c.2.1, c.2.2))) =
        some (3, "THIS IS A CAESAR CIPHER.".toList) ∧
      ((brute_force_caesar ("WKLV LV D FDHVDU FLSKHU.".toList) true
          5).2.head?.map (fun c => (c.2.1, c.2.2))) =
        some (3, "THIS IS A CAESAR CIPHER.".toList) := by decide

/-- The `candidates` list always has exactly 26 entries. -/
lemma bf_candidates_length (ct : List Char) (use : Bool) :
    (bf_candidates ct use).length = 26 := by
  simp [bf_candidates]

/-- The shifts of the `candidates` list, in construction order, are
`0, 1, ..., 25`. -/
lemma bf_candidates_map_shift (ct : List Char) (use : Bool) :
    (bf_candidates ct use).map (fun c => c.2.1) = List.range 26 := by
  unfold bf_candidates
  rw [List.map_map]
  have h : ((fun c : Cand => c.2.1) ∘ bf_candidate ct use) =
      fun s : Nat => s := by
    funext s; rfl
  rw [h, List.map_id']

/-- The sorted list is a permutation of the `candidates` list. -/
lemma bf_sorted_perm (ct : List Char) (use : Bool) :
    ((bf_candidates ct use).insertionSort candLe).Perm
      (bf_candidates ct use) :=
  List.perm_insertionSort candLe (bf_candidates ct use)

/-- The full ranked list always has exactly 26 entries. -/
lemma bf_sorted_length (ct : List Char) (use : Bool) :
    ((bf_candidates ct use).insertionSort candLe).length = 26 := by
  rw [(bf_sorted_perm ct use).length_eq, bf_candidates_length]

/-- When all 26 candidates carry the same score, the `candidates` list is
already sorted (shifts ascend), so sorting leaves it unchanged. -/
lemma bf_insertionSort_eq_self (ct : List Char) (use : Bool)
    (hconst : ∀ s : Nat, (bf_candidate ct use s).1 =
      (bf_candidate ct use 0).1) :
    (bf_candidates ct use).insertionSort candLe = bf_candidates ct use := by
  apply List.Sorted.insertionSort_eq
  unfold bf_candidates List.Sorted
  apply List.Pairwise.map (bf_candidate ct use)
    (fun a b hab => ?_) (List.pairwise_lt_range 26)
  have e : (bf_candidate ct use a).1 = (bf_candidate ct use b).1 :=
    (hconst a).trans (hconst b).symm
  exact Or.inr ⟨congrArg Prod.fst e,
    Or.inr ⟨congrArg Prod.snd e, Nat.le_of_lt hab⟩⟩

/-- C3: the full ranked list always has exactly 26 entries whose shifts are
a permutation of `0..25`, and for positive `topK` the top-k list is the
prefix of the full list of length `min(topK, 26)`; in particular `topK = 30`
returns the full 26-entry list.

Claim: "For every ciphertext, every useScoring value, and every topK that is
a positive integer, rankShifts (brute_force_caesar) returns an allRankedList
containing exactly 26 entries whose shift values are a permutation of 0..25,
and a topKList that is exactly the prefix of allRankedList of length
min(topK, 26); in particular, requesting topK = 30 yields a topKList of
length exactly 26, identical to allRankedList." -/
theorem brute_force_caesar_counts (ct : List Char) (use : Bool) (k : Int)
    (hk : 0 < k) :
    (brute_force_caesar ct use k).2.length = 26 ∧
    ((brute_force_caesar ct use k).2.map (fun c => c.2.1)).Perm
      (List.range 26) ∧
    (brute_force_caesar ct use k).1 =
      (brute_force_caesar ct use k).2.take (min k 26).toNat ∧
    ((brute_force_caesar ct use 30).1 = (brute_force_caesar ct use 30).2 ∧
      (brute_force_caesar ct use 30).1.length = 26) := by
  have hsnd : ∀ k' : Int, (brute_force_caesar ct use k').2 =
      (bf_candidates ct use).insertionSort candLe := fun _ => by
    simp only [brute_force_caesar]
  have hfst : ∀ k' : Int, (brute_force_caesar ct use k').1 =
      pySliceTo ((bf_candidates ct use).insertionSort candLe) k' :=
    fun _ => by simp only [brute_force_caesar]
  have hlen := bf_sorted_length ct use
  refine ⟨by rw [hsnd]; exact hlen, ?_, ?_, ?_, ?_⟩
  · rw [hsnd]
    have h1 := (bf_sorted_perm ct use).map (fun c : Cand => c.2.1)
    rw [bf_candidates_map_shift ct use] at h1
    exact h1
  · rw [hfst, hsnd]
    unfold pySliceTo
    rw [if_pos (le_of_lt hk)]
    apply List.take_eq_take.mpr
    rw [hlen]
    omega
  · rw [hfst, hsnd]
    unfold pySliceTo
    rw [if_pos (by norm_num)]
    apply List.take_of_length_le
    rw [hlen]
    norm_num
  · rw [hfst]
    unfold pySliceTo
    rw [if_pos (by norm_num)]
    rw [List.length_take, hlen]
    norm_num

/-- Witness for `brute_force_caesar_counts` at ciphertext `"Hi!"`,
`useScoring = false`, `topK = 2`. -/
theorem brute_force_caesar_counts_witness :
    (0 : Int) < 2 ∧
      ((brute_force_caesar ("Hi!".toList) false 2).2.length = 26 ∧
      ((brute_force_caesar ("Hi!".toList) false 2).2.map
        (fun c => c.2.1)).Perm (List.range 26) ∧
      (brute_force_caesar ("Hi!".toList) false 2).1 =
        (brute_force_caesar ("Hi!".toList) false 2).2.take
          (min (2 : Int) 26).toNat ∧
      ((brute_force_caesar ("Hi!".toList) false 30).1 =
          (brute_force_caesar ("Hi!".toList) false 30).2 ∧
        (brute_force_caesar ("Hi!".toList) false 30).1.length = 26)) :=
  ⟨by decide, brute_force_caesar_counts ("Hi!".toList) false 2 (by decide)⟩

/-- C5 counterexample: `brute_force_caesar` with the non-positive
`topK = 0` does not fail — it still computes and returns all 26 candidates
(with an empty top-k slice), contradicting "aborts the entire ranking call
before any candidate is computed". -/
theorem brute_force_caesar_nonpositive_topk_cex :
    (brute_force_caesar [] false 0).2.length = 26 ∧
      (brute_force_caesar [] false 0).1 = [] := by decide

/-- C5 (amended): `brute_force_caesar` performs no validation of `topK`:
for every non-positive `topK` the call completes normally, all 26
candidates are produced in `allRankedList`, and `topKList` is the Python
slice `candidates[:topK]` — empty for `topK = 0`, and the first
`26 + topK` entries (clamped at 0) for negative `topK`. -/
theorem brute_force_caesar_nonpositive_topk (ct : List Char) (use : Bool)
    (k : Int) (hk : k ≤ 0) :
    (brute_force_caesar ct use k).2.length = 26 ∧
    (k = 0 → (brute_force_caesar ct use k).1 = []) ∧
    (k < 0 → (brute_force_caesar ct use k).1 =
      (brute_force_caesar ct use k).2.take ((26 + k).toNat)) := by
  have hsnd : (brute_force_caesar ct use k).2 =
      (bf_candidates ct use).insertionSort candLe := by
    simp only [brute_force_caesar]
  have hfst : (brute_force_caesar ct use k).1 =
      pySliceTo ((bf_candidates ct use).insertionSort candLe) k := by
    simp only [brute_force_caesar]
  have hlen := bf_sorted_length ct use
  refine ⟨by rw [hsnd]; exact hlen, ?_, ?_⟩
  · intro h0
    subst h0
    rw [hfst]
    unfold pySliceTo
    rw [if_pos le_rfl]
    rfl
  · intro hneg
    rw [hfst, hsnd]
    unfold pySliceTo
    rw [if_neg (by omega), hlen]
    congr 1

/-- Witness for `brute_force_caesar_nonpositive_topk` at ciphertext `"A"`,
`useScoring = false`, `topK = -1`. -/
theorem brute_force_caesar_nonpositive_topk_witness :
    (-1 : Int) ≤ 0 ∧
      ((brute_force_caesar ("A".toList) false (-1)).2.length = 26 ∧
      ((-1 : Int) = 0 → (brute_force_caesar ("A".toList) false (-1)).1 = []) ∧
      ((-1 : Int) < 0 → (brute_force_caesar ("A".toList) false (-1)).1 =
        (brute_force_caesar ("A".toList) false (-1)).2.take
          ((26 + (-1 : Int)).toNat))) :=
  ⟨by decide,
    brute_force_caesar_nonpositive_topk ("A".toList) false (-1) (by decide)⟩

/-- C9: with scoring disabled, every candidate gets the neutral score
`(0, 0)` and the full ranked list is in ascending shift order `0..25`.

Claim: "For every ciphertext, calling rankShifts (brute_force_caesar) with
useScoring = false returns an allRankedList whose shift values appear in
strictly ascending order 0, 1, ..., 25, regardless of the ciphertext's
content, with every candidate receiving an identical neutral score." -/
theorem brute_force_caesar_no_scoring (ct : List Char) (k : Int) :
    (brute_force_caesar ct false k).2.map (fun c => c.2.1) =
      List.range 26 ∧
    ∀ c ∈ (brute_force_caesar ct false k).2,
      c.1 = ((0 : Int), ((0 : ℚ) : WithTop ℚ)) := by
  have hsnd : (brute_force_caesar ct false k).2 =
      (bf_candidates ct false).insertionSort candLe := by
    simp only [brute_force_caesar]
  have hsort : (bf_candidates ct false).insertionSort candLe =
      bf_candidates ct false :=
    bf_insertionSort_eq_self ct false (fun s => rfl)
  rw [hsnd, hsort]
  refine ⟨bf_candidates_map_shift ct false, ?_⟩
  intro c hc
  rcases List.mem_map.mp hc with ⟨s, _, rfl⟩
  rfl

/-- Decryption fixes a text with no alphabetic characters. -/
lemma caesar_decrypt_of_no_alpha (ct : List Char) (s : Int)
    (h : ∀ c ∈ ct, py_isalpha c = false) : caesar_decrypt ct s = ct :=
  list_map_id_of ct _
    (fun c hc => caesar_decrypt_char_of_not_alpha s c (h c hc))

/-- Splitting an all-whitespace list yields no tokens. -/
lemma py_split_go_all_space (l : List Char)
    (h : ∀ c ∈ l, py_isspace c = true) : py_split_go l [] = [] := by
  induction l with
  | nil => rfl
  | cons c cs ih =>
    unfold py_split_go
    rw [if_pos (h c (by simp)), if_pos rfl]
    exact ih (fun c hc => h c (by simp [hc]))

/-- The lexical score of a text with no alphabetic characters is `0`:
every character is replaced by a space, so there are no tokens. -/
lemma english_word_score_no_alpha (ct : List Char)
    (h : ∀ c ∈ ct, py_isalpha c = false) : english_word_score ct = 0 := by
  unfold english_word_score py_split
  have hsp : ∀ c' ∈ (ct.map py_upper).map
      (fun ch => if py_isalpha ch then ch else ' '), py_isspace c' = true := by
    intro c' hc'
    rcases List.mem_map.mp hc' with ⟨u, hu, rfl⟩
    rcases List.mem_map.mp hu with ⟨c, hc, rfl⟩
    have hup : py_upper c = c := by
      unfold py_upper
      rw [if_neg]
      intro hl
      have : py_isalpha c = true := by simp [py_isalpha, hl]
      rw [h c hc] at this
      exact Bool.false_ne_true this
    rw [hup, h c hc]
    rfl
  rw [py_split_go_all_space _ hsp]
  rfl

/-- With scoring enabled, each candidate built from a letter-free ciphertext
carries the score `(0, ⊤)`. -/
lemma bf_candidate_no_alpha (ct : List Char)
    (h : ∀ c ∈ ct, py_isalpha c = false) (s : Nat) :
    bf_candidate ct true s = (((0 : Int), (⊤ : WithTop ℚ)), s, ct) := by
  simp only [bf_candidate]
  rw [caesar_decrypt_of_no_alpha ct _ h]
  rw [chi_square_no_alpha ct h, english_word_score_no_alpha ct h]
  norm_num

/-- C7: for a ciphertext with no alphabetic characters, every candidate has
chi-square `+∞` and lexical score `0`, and (scoring enabled) the top-ranked
candidate is shift `0` by the ascending-shift tie-break.

Claim: "For every ciphertext consisting only of non-alphabetic characters
(e.g. \"12345!!!\"), with scoring enabled every one of the 26 candidates
produced by rankShifts has chi-square equal to positive infinity and
lexical hit score 0, and the top-ranked candidate is shift 0 (ties broken
by ascending shift value)." -/
theorem brute_force_caesar_nonalpha (ct : List Char) (k : Int)
    (h : ∀ c ∈ ct, py_isalpha c = false) :
    (∀ s : Nat, s < 26 →
      chi_square_english (caesar_decrypt ct (s : Int)) = ⊤ ∧
      english_word_score (caesar_decrypt ct (s : Int)) = 0) ∧
    (brute_force_caesar ct true k).2.head? =
      some (((0 : Int), (⊤ : WithTop ℚ)), 0, ct) := by
  constructor
  · intro s _
    rw [caesar_decrypt_of_no_alpha ct _ h]
    exact ⟨chi_square_no_alpha ct h, english_word_score_no_alpha ct h⟩
  · have hsnd : (brute_force_caesar ct true k).2 =
        (bf_candidates ct true).insertionSort candLe := by
      simp only [brute_force_caesar]
    have hsort : (bf_candidates ct true).insertionSort candLe =
        bf_candidates ct true :=
      bf_insertionSort_eq_self ct true (fun s => by
        rw [bf_candidate_no_alpha ct h s, bf_candidate_no_alpha ct h 0])
    rw [hsnd, hsort]
    unfold bf_candidates
    rw [List.head?_map]
    have hr : (List.range 26).head? = some 0 := by decide
    rw [hr]
    show some (bf_candidate ct true 0) =
      some (((0 : Int), (⊤ : WithTop ℚ)), 0, ct)
    rw [bf_candidate_no_alpha ct h 0]

/-- Witness for `brute_force_caesar_nonalpha` at ciphertext `"12345!!!"`,
`topK = 5`. -/
theorem brute_force_caesar_nonalpha_witness :
    (∀ c ∈ "12345!!!".toList, py_isalpha c = false) ∧
      ((∀ s : Nat, s < 26 →
        chi_square_english (caesar_decrypt ("12345!!!".toList) (s : Int)) =
          ⊤ ∧
        english_word_score (caesar_decrypt ("12345!!!".toList) (s : Int)) =
          0) ∧
      (brute_force_caesar ("12345!!!".toList) true 5).2.head? =
        some (((0 : Int), (⊤ : WithTop ℚ)), 0, "12345!!!".toList)) :=
  ⟨by decide, brute_force_caesar_nonalpha ("12345!!!".toList) 5 (by decide)⟩
